import Mathlib

/-!
Verification development for the json-patch engine of lens-vm/jsonmerge
(src/patch.go).  JSON documents are modelled as an inductive tree, the
container abstraction (fastdoc / fastarray), pointer resolution
(findObject), the operation handlers and Patch.ApplyFast are shallowly
embedded as executable Lean functions.  Go mutation through container
pointers is modelled by recording the accessor path walked during
resolution and writing the mutated parent back along it.  External
fastjson primitives (parser, serializer, Object.Get/Set/Del,
SetArrayItem/InsertArrayItem) are not part of src/patch.go; they are
modelled from the spec and from the in-source comments that describe
them, and are marked as such.
-/

namespace JsonMerge

/-- The JSON value tree (spec section 3: tagged union of null, bool,
number, string, array, object with insertion order preserved).  Numbers
keep their literal text, as the fastjson parser does until a numeric
accessor is called. -/
inductive JValue where
  | jnull
  | jbool (b : Bool)
  | jnum (lit : String)
  | jstr (s : String)
  | jarr (elems : List JValue)
  | jobj (fields : List (String × JValue))

open JValue

/-- A value that can be wrapped as a container (fastjson TypeArray or
TypeObject). -/
def isContainer : JValue → Bool
  | jarr _ => true
  | jobj _ => true
  | _ => false

/-! ### Object primitives (model of fastjson Object.Get / Set / Del) -/

/-- Modelled from the spec: fastjson `Object.Get` — first entry with the
given key, if any. -/
def objGet : List (String × JValue) → String → Option JValue
  | [], _ => none
  | (k0, v0) :: fs, k => if k0 = k then some v0 else objGet fs k

/-- Modelled from the spec: fastjson `Object.Set` — overwrite the first
entry with the given key in place, otherwise append a new entry
(insertion order preserved for new keys, overwrite does not reorder). -/
def objSet : List (String × JValue) → String → JValue → List (String × JValue)
  | [], k, v => [(k, v)]
  | (k0, v0) :: fs, k, v => if k0 = k then (k0, v) :: fs else (k0, v0) :: objSet fs k v

/-- Modelled from the spec: fastjson `Object.Del` — delete the first
entry with the given key; no-op when the key is absent. -/
def objDel : List (String × JValue) → String → List (String × JValue)
  | [], _ => []
  | (k0, v0) :: fs, k => if k0 = k then fs else (k0, v0) :: objDel fs k

/-- Apply a function to the value of the first entry with the given key
(leave the list unchanged when absent).  Used to write a mutated child
container back into its parent, modelling Go mutation in place. -/
def objModify : List (String × JValue) → String → (JValue → JValue) → List (String × JValue)
  | [], _, _ => []
  | (k0, v0) :: fs, k, f => if k0 = k then (k0, f v0) :: fs else (k0, v0) :: objModify fs k f

/-- Apply a function to the element at an index (no-op when out of
range).  Array counterpart of `objModify`. -/
def arrModify : List JValue → Nat → (JValue → JValue) → List JValue
  | [], _, _ => []
  | e :: es, 0, f => f e :: es
  | e :: es, n + 1, f => e :: arrModify es n f

/-! ### Index token parsing (model of Go strconv.Atoi) -/

def isDigit (c : Char) : Bool := decide ('0' ≤ c ∧ c ≤ '9')

def digitsVal (cs : List Char) : Nat :=
  cs.foldl (fun a c => a * 10 + (c.toNat - '0'.toNat)) 0

/-- Modelled from the spec: Go `strconv.Atoi` on a token — optional
sign followed by one or more decimal digits, nothing else (64-bit
overflow is not modelled; it is unreachable for real array lengths). -/
def goAtoi (cs : List Char) : Option Int :=
  match cs with
  | [] => none
  | '+' :: rest =>
    if rest ≠ [] ∧ rest.all isDigit then some (Int.ofNat (digitsVal rest)) else none
  | '-' :: rest =>
    if rest ≠ [] ∧ rest.all isDigit then some (-(Int.ofNat (digitsVal rest))) else none
  | _ => if cs.all isDigit then some (Int.ofNat (digitsVal cs)) else none

/-- Modelled from the spec: fastjson `Value.Get` with a string key on an
array — parse the key as an integer; return the element when the index
is in range, nil otherwise (never an error). -/
def arrGetTok (es : List JValue) (k : List Char) : Option JValue :=
  match goAtoi k with
  | some i => if i < 0 then none else es[i.toNat]?
  | none => none

/-- Modelled from the spec and the in-source NOTE (src/patch.go lines
99 to 106): the forked fastjson `SetArrayItem` sets the element when the
index is within the current length and otherwise performs a simple
append of the value. -/
def setArrayItem (es : List JValue) (idx : Nat) (v : JValue) : List JValue :=
  if idx < es.length then es.set idx v else es ++ [v]

/-- Modelled from the spec (section 4.2 ArrayContainer add): the forked
fastjson `InsertArrayItem` inserts the value at the index, shifting
subsequent elements right; an index at or beyond the length appends. -/
def insertArrayItem : List JValue → Nat → JValue → List JValue
  | es, 0, v => v :: es
  | [], _ + 1, v => [v]
  | e :: es, n + 1, v => e :: insertArrayItem es n v

/-- Modelled from the spec: fastjson `Value.Del` on an array — parse the
key as an index and delete the element, shifting left; no-op on a
non-numeric or out-of-range key. -/
def arrDel (es : List JValue) (k : List Char) : List JValue :=
  match goAtoi k with
  | some i => if i < 0 then es else es.eraseIdx i.toNat
  | none => es

/-! ### RFC 6901 token decoding (src/patch.go decodePatchKey) -/

/-- Model of `decodePatchKey` (src/patch.go lines 480 to 486): the
`strings.NewReplacer("~1", "/", "~0", "~")` single left-to-right scan,
trying `~1` then `~0` at each position and never rescanning emitted
output. -/
def decodePatchKey : List Char → List Char
  | '~' :: '1' :: rest => '/' :: decodePatchKey rest
  | '~' :: '0' :: rest => '~' :: decodePatchKey rest
  | c :: rest => c :: decodePatchKey rest
  | [] => []

/-- Model of Go `strings.Split(path, "/")`. -/
def splitSlash : List Char → List (List Char)
  | [] => [[]]
  | '/' :: rest => [] :: splitSlash rest
  | c :: rest =>
    match splitSlash rest with
    | s :: ss => (c :: s) :: ss
    | [] => [[c]]

/-! ### Operations and patches (src/patch.go Operation, Patch) -/

/-- An `Operation` is the decoded fastjson object of one patch element
(src/patch.go lines 145 to 147): an ordered field list. -/
def Operation := List (String × JValue)

/-- Model of `Operation.getStringField` (src/patch.go lines 174 to
184): the field must exist and be a JSON string. -/
def getStringField (o : Operation) (key : String) : Option String :=
  match objGet o key with
  | some (jstr s) => some s
  | _ => none

/-- Model of `Operation.Kind` (src/patch.go lines 149 to 154). -/
def Operation.Kind (o : Operation) : String :=
  (getStringField o "op").getD "unknown"

/-- Model of `Operation.Path` (src/patch.go lines 156 to 161); `none`
models the error return. -/
def Operation.Path (o : Operation) : Option String :=
  getStringField o "path"

/-- Model of `Operation.From` (src/patch.go lines 163 to 168). -/
def Operation.From (o : Operation) : Option String :=
  getStringField o "from"

/-- Model of `Operation.value` (src/patch.go lines 170 to 172): the raw
field, possibly absent (Go nil). -/
def Operation.value (o : Operation) : Option JValue :=
  objGet o "value"

/-- A patch is an ordered sequence of operations (src/patch.go line
190). -/
def Patch := List Operation

/-! ### Accessor paths: functional model of Go in-place mutation

`findObject` in Go returns a `container` holding pointers into the
shared tree; mutating through it mutates the root.  The functional
counterpart records the accessor path walked during resolution
(`Acc` steps) and writes the mutated parent back along that path with
`setAcc`. -/

inductive Acc where
  | field (k : String)
  | idx (n : Nat)

/-- Resolution walk of the intermediate pointer tokens (src/patch.go
findObject lines 449 to 468): at each step decode the token, `get` the
child from the current container (object member lookup, or fastjson
array Get), and descend only into objects and arrays.  Returns the
accessor path together with the parent container value. -/
def resolve : JValue → List (List Char) → Option (List Acc × JValue)
  | v, [] => some ([], v)
  | jobj fs, tok :: rest =>
    match objGet fs (String.mk (decodePatchKey tok)) with
    | some child =>
      if isContainer child then
        match resolve child rest with
        | some (accs, parent) => some (Acc.field (String.mk (decodePatchKey tok)) :: accs, parent)
        | none => none
      else none
    | none => none
  | jarr es, tok :: rest =>
    match goAtoi (decodePatchKey tok) with
    | some i =>
      if i < 0 then none
      else
        match es[i.toNat]? with
        | some child =>
          if isContainer child then
            match resolve child rest with
            | some (accs, parent) => some (Acc.idx i.toNat :: accs, parent)
            | none => none
          else none
        | none => none
    | none => none
  | _, _ :: _ => none

/-- Write a new subtree at the end of an accessor path, rebuilding the
spine; the functional counterpart of mutating the resolved parent
container in place. -/
def setAcc : JValue → List Acc → JValue → JValue
  | _, [], w => w
  | jobj fs, Acc.field k :: accs, w => jobj (objModify fs k (fun c => setAcc c accs w))
  | jarr es, Acc.idx n :: accs, w => jarr (arrModify es n (fun c => setAcc c accs w))
  | v, _ :: _, _ => v

/-! ### Container operations (src/patch.go fastdoc / fastarray) -/

/-- Model of `fastarray.getIndex` (src/patch.go lines 130 to 141):
Atoi, then reject negative indices. -/
def getIndex (k : List Char) : Except String Nat :=
  match goAtoi k with
  | none => .error "invalid index syntax"
  | some i => if i < 0 then .error "invalid negative index" else .ok i.toNat

/-- Container `get` as called by the operation handlers: `fastdoc.get`
(src/patch.go lines 59 to 64) errors on a missing member, while
`fastarray.get` (lines 121 to 123) returns fastjson `Value.Get` with a
nil error even when the element is absent. -/
def conGet : JValue → List Char → Except String (Option JValue)
  | jobj fs, k =>
    match objGet fs (String.mk k) with
    | some v => .ok (some v)
    | none => .error "missing key"
  | jarr es, k => .ok (arrGetTok es k)
  | _, _ => .error "not a container"

/-- Container `set`: `fastdoc.set` (src/patch.go lines 66 to 69) always
succeeds; `fastarray.set` (lines 84 to 92) parses the index with
`getIndex` and then calls the forked `SetArrayItem`. -/
def conSet : JValue → List Char → JValue → Except String JValue
  | jobj fs, k, v => .ok (jobj (objSet fs (String.mk k) v))
  | jarr es, k, v =>
    match getIndex k with
    | .error e => .error e
    | .ok idx => .ok (jarr (setArrayItem es idx v))
  | _, _, _ => .error "not a container"

/-- Container `add`: `fastdoc.add` (src/patch.go lines 71 to 73) is
`set`; `fastarray.add` (lines 94 to 119) appends on the `-` sentinel
(`SetArrayItem(math.MaxInt, val)`, a simple append since `math.MaxInt`
exceeds any Go slice length) and otherwise inserts at the parsed
index. -/
def conAdd : JValue → List Char → JValue → Except String JValue
  | jobj fs, k, v => .ok (jobj (objSet fs (String.mk k) v))
  | jarr es, k, v =>
    if k = ['-'] then .ok (jarr (es ++ [v]))
    else
      match getIndex k with
      | .error e => .error e
      | .ok idx => .ok (jarr (insertArrayItem es idx v))
  | _, _, _ => .error "not a container"

/-- Container `remove`: `fastdoc.remove` (src/patch.go lines 75 to 78)
and `fastarray.remove` (lines 125 to 128) both return a nil error
unconditionally; an absent key is a silent no-op. -/
def conRemove : JValue → List Char → Except String JValue
  | jobj fs, k => .ok (jobj (objDel fs (String.mk k)))
  | jarr es, k => .ok (jarr (arrDel es k))
  | _, _ => .error "not a container"

/-! ### Engine state (Patch.ApplyFast, src/patch.go lines 374 to 414)

`ApplyFast` keeps two things: `doc`, the originally parsed root value
that it returns at the end, and the container variable `pd` that the
handlers mutate through.  Initially `pd` wraps `doc` (so mutations
through `pd` are mutations of `doc`); a root-level replace rebinds `pd`
to a detached value without touching `doc`.  A scalar root leaves `pd`
as the nil container. -/

inductive PD where
  | root
  | detached (v : JValue)

structure FState where
  ret : JValue
  pd : Option PD

/-- The tree currently wrapped by the container variable `pd` (none for
the Go nil container). -/
def curTree (s : FState) : Option JValue :=
  match s.pd with
  | some PD.root => some s.ret
  | some (PD.detached v) => some v
  | none => none

/-- Store the mutated tree back where `pd` points: into the root when
`pd` still wraps the original document, into the detached value after a
root-level replace. -/
def putCur (s : FState) (v : JValue) : FState :=
  match s.pd with
  | some PD.root => { s with ret := v }
  | some (PD.detached _) => { s with pd := some (PD.detached v) }
  | none => s

/-- Outcome of a handler or of a whole apply: success, a Go error
return, or a Go runtime panic (nil dereference, or the
`panic("impl")` of the unimplemented test and copy handlers). -/
inductive PRes (α : Type) where
  | ok (a : α)
  | err (e : String)
  | crash

/-- Model of `findObject` (src/patch.go lines 438 to 471): split the
path on `/`; fewer than two segments yields the nil container.  Calling
a method on the nil container (scalar root) panics, which happens
exactly when there is at least one intermediate token; with no
intermediate token the nil container itself is returned and the caller
reports a missing path.  Otherwise walk the intermediate tokens with
`resolve` and return the current tree, the accessor path, the parent
container and the decoded final token. -/
def findObject (s : FState) (path : List Char) :
    PRes (Option (JValue × List Acc × JValue × List Char)) :=
  let ss := splitSlash path
  if ss.length < 2 then .ok none
  else
    let parts := (ss.drop 1).dropLast
    match curTree s with
    | none =>
      match parts with
      | [] => .ok none
      | _ :: _ => .crash
    | some t =>
      match resolve t parts with
      | some (accs, parent) => .ok (some (t, accs, parent, decodePatchKey (ss.getLastD [])))
      | none => .ok none

/-- Model of `Patch.add` (src/patch.go lines 250 to 275). -/
def patchAdd (s : FState) (op : Operation) : PRes FState :=
  match op.Path with
  | none => .err "add operation failed decoding path"
  | some path =>
    match findObject s path.data with
    | .crash => .crash
    | .err e => .err e
    | .ok none => .err "doc is missing path"
    | .ok (some (t, accs, parent, key)) =>
      match conAdd parent key (op.value.getD jnull) with
      | .error e => .err e
      | .ok parent2 => .ok (putCur s (setAcc t accs parent2))

/-- Model of `Patch.remove` (src/patch.go lines 277 to 294). -/
def patchRemove (s : FState) (op : Operation) : PRes FState :=
  match op.Path with
  | none => .err "remove operation failed decoding path"
  | some path =>
    match findObject s path.data with
    | .crash => .crash
    | .err e => .err e
    | .ok none => .err "doc is missing path"
    | .ok (some (t, accs, parent, key)) =>
      match conRemove parent key with
      | .error e => .err e
      | .ok parent2 => .ok (putCur s (setAcc t accs parent2))

/-- Model of `intoFastType` (src/patch.go lines 418 to 434): only
objects and arrays become containers. -/
def intoFastType (v : JValue) : Option JValue :=
  if isContainer v then some v else none

/-- Model of `Patch.replace` (src/patch.go lines 296 to 329).  On the
empty path the container variable is rebound (`*doc = con`) to the
operation's value, detached from the returned root (a missing value
field would make `intoFastType` dereference nil — a panic).  Otherwise
the handler checks existence with `con.get` (which for an array parent
never returns an error) and then calls `con.set`. -/
def patchReplace (s : FState) (op : Operation) : PRes FState :=
  match op.Path with
  | none => .err "replace operation: decoding path"
  | some path =>
    if path = "" then
      match op.value with
      | none => .crash
      | some v =>
        match intoFastType v with
        | none => .err "replace operation: value must be object or array"
        | some val => .ok { s with pd := some (PD.detached val) }
    else
      match findObject s path.data with
      | .crash => .crash
      | .err e => .err e
      | .ok none => .err "replace operation: doc is missing path"
      | .ok (some (t, accs, parent, key)) =>
        match conGet parent key with
        | .error _ => .err "replace operation: doc is missing key"
        | .ok _ =>
          match conSet parent key (op.value.getD jnull) with
          | .error e => .err e
          | .ok parent2 => .ok (putCur s (setAcc t accs parent2))

/-- Model of `Patch.move` (src/patch.go lines 331 to 364): resolve
`from`, `get` the value (only an explicit error aborts; an array get
may succeed with a nil value, added as null), resolve `path` against
the same unmutated document, and `add` the fetched value there.  No
removal is performed. -/
def patchMove (s : FState) (op : Operation) : PRes FState :=
  match op.From with
  | none => .err "move operation: failed to decode from"
  | some fromP =>
    match findObject s fromP.data with
    | .crash => .crash
    | .err e => .err e
    | .ok none => .err "move operation: doc is missing path"
    | .ok (some (_, _, fparent, fkey)) =>
      match conGet fparent fkey with
      | .error _ => .err "move operation: getting value at path"
      | .ok vOpt =>
        match op.Path with
        | none => .err "move operation: decoding path"
        | some pathP =>
          match findObject s pathP.data with
          | .crash => .crash
          | .err e => .err e
          | .ok none => .err "move operation: doc is missing destination path"
          | .ok (some (t, accs, parent, key)) =>
            match conAdd parent key (vOpt.getD jnull) with
            | .error e => .err e
            | .ok parent2 => .ok (putCur s (setAcc t accs parent2))

/-- Dispatch on the operation kind (src/patch.go lines 389 to 406);
`test` and `copy` are `panic("impl")` in the source. -/
def applyOp (s : FState) (op : Operation) : PRes FState :=
  if op.Kind = "add" then patchAdd s op
  else if op.Kind = "remove" then patchRemove s op
  else if op.Kind = "replace" then patchReplace s op
  else if op.Kind = "move" then patchMove s op
  else if op.Kind = "test" then .crash
  else if op.Kind = "copy" then .crash
  else .err "unexpected operation kind"

/-- The operation loop of `ApplyFast` (src/patch.go lines 388 to 411):
strictly in sequence, aborting on the first failure. -/
def applyOps (s : FState) : List Operation → PRes FState
  | [] => .ok s
  | op :: rest =>
    match applyOp s op with
    | .ok s2 => applyOps s2 rest
    | .err e => .err e
    | .crash => .crash

/-- The initial state of `ApplyFast` (src/patch.go lines 375 to 386):
wrap an array or object root as the container, leave the nil container
for any other root type. -/
def initState (doc : JValue) : FState :=
  { ret := doc, pd := if isContainer doc then some PD.root else none }

/-- Model of `Patch.ApplyFast` (src/patch.go lines 374 to 414): run the
operations and return `doc` — the originally parsed root value, not the
container variable that a root-level replace rebinds. -/
def Patch.ApplyFast (p : Patch) (doc : JValue) : PRes JValue :=
  match applyOps (initState doc) p with
  | .ok s => .ok s.ret
  | .err e => .err e
  | .crash => .crash

/-- Modelled from the spec: the observation "the value at pointer p" —
resolve the intermediate tokens exactly as `findObject` does and read
the final token from the parent container (object member lookup, or
fastjson array Get). -/
def readPointer (t : JValue) (path : List Char) : Option JValue :=
  let ss := splitSlash path
  if ss.length < 2 then none
  else
    match resolve t ((ss.drop 1).dropLast) with
    | some (_, parent) =>
      match parent with
      | jobj fs => objGet fs (String.mk (decodePatchKey (ss.getLastD [])))
      | jarr es => arrGetTok es (decodePatchKey (ss.getLastD []))
      | _ => none
    | none => none

/-! ### JSON text (models of the external fastjson parser and
serializer, spec section 6) -/

def isWs (c : Char) : Bool := c = ' ' ∨ c = '\n' ∨ c = '\t' ∨ c = '\r'

def skipWs : List Char → List Char
  | c :: cs => if isWs c then skipWs cs else c :: cs
  | [] => []

/-- Unescape one backslash escape inside a JSON string (`\\u` escapes
are not modelled; no input in this development uses them). -/
def unescape (c : Char) : Option Char :=
  if c = '"' then some '"'
  else if c = '\\' then some '\\'
  else if c = '/' then some '/'
  else if c = 'n' then some '\n'
  else if c = 't' then some '\t'
  else if c = 'r' then some '\r'
  else none

/-- Parse the body of a JSON string after the opening quote, returning
the decoded characters and the rest of the input. -/
def parseStrChars : List Char → Option (List Char × List Char)
  | '"' :: rest => some ([], rest)
  | '\\' :: c :: rest =>
    match unescape c, parseStrChars rest with
    | some e, some (s, r) => some (e :: s, r)
    | _, _ => none
  | c :: rest =>
    match parseStrChars rest with
    | some (s, r) => some (c :: s, r)
    | none => none
  | [] => none

def isNumChar (c : Char) : Bool :=
  isDigit c ∨ c = '-' ∨ c = '+' ∨ c = '.' ∨ c = 'e' ∨ c = 'E'

mutual

/-- Modelled from the spec: the external JSON parser
(fastjson.ParseBytes), fuel-indexed.  Number syntax is collected
greedily as a literal; `\\u` string escapes are unsupported.  Array and
object elements must be separated by `,` and terminated by `]` or the
closing brace — exactly the shape the decode/encode round-trip claim
depends on. -/
def parseVal : Nat → List Char → Option (JValue × List Char)
  | 0, _ => none
  | Nat.succ fuel, cs =>
    match skipWs cs with
    | 'n' :: 'u' :: 'l' :: 'l' :: r => some (jnull, r)
    | 't' :: 'r' :: 'u' :: 'e' :: r => some (jbool true, r)
    | 'f' :: 'a' :: 'l' :: 's' :: 'e' :: r => some (jbool false, r)
    | '"' :: r =>
      match parseStrChars r with
      | some (s, r2) => some (jstr (String.mk s), r2)
      | none => none
    | '[' :: r =>
      match skipWs r with
      | ']' :: r2 => some (jarr [], r2)
      | r2 =>
        match parseElems fuel r2 with
        | some (vs, r3) => some (jarr vs, r3)
        | none => none
    | '\x7b' :: r =>
      match skipWs r with
      | '\x7d' :: r2 => some (jobj [], r2)
      | r2 =>
        match parseMembers fuel r2 with
        | some (ms, r3) => some (jobj ms, r3)
        | none => none
    | c :: r =>
      if isDigit c ∨ c = '-' then
        match (c :: r).span isNumChar with
        | (lit, r2) => some (jnum (String.mk lit), r2)
      else none
    | [] => none

/-- Elements of a non-empty JSON array: value, then `,` and more
elements or the closing `]`. -/
def parseElems : Nat → List Char → Option (List JValue × List Char)
  | 0, _ => none
  | Nat.succ fuel, cs =>
    match parseVal fuel cs with
    | some (v, r) =>
      match skipWs r with
      | ',' :: r2 =>
        match parseElems fuel r2 with
        | some (vs, r3) => some (v :: vs, r3)
        | none => none
      | ']' :: r2 => some ([v], r2)
      | _ => none
    | none => none

/-- Members of a non-empty JSON object: string key, `:`, value, then
`,` and more members or the closing brace. -/
def parseMembers : Nat → List Char → Option (List (String × JValue) × List Char)
  | 0, _ => none
  | Nat.succ fuel, cs =>
    match skipWs cs with
    | '"' :: r =>
      match parseStrChars r with
      | some (k, r1) =>
        match skipWs r1 with
        | ':' :: r2 =>
          match parseVal fuel r2 with
          | some (v, r3) =>
            match skipWs r3 with
            | ',' :: r4 =>
              match parseMembers fuel r4 with
              | some (ms, r5) => some ((String.mk k, v) :: ms, r5)
              | none => none
            | '\x7d' :: r4 => some ([(String.mk k, v)], r4)
            | _ => none
          | none => none
        | _ => none
      | none => none
    | _ => none

end

/-- Modelled from the spec: parse a whole buffer; anything but trailing
whitespace after the value is rejected, as fastjson does. -/
def parseJSON (cs : List Char) : Option JValue :=
  match parseVal (cs.length + 1) cs with
  | some (v, r) => if skipWs r = [] then some v else none
  | none => none

/-- Escape one character for JSON string output. -/
def escapeChar (c : Char) : List Char :=
  if c = '"' then ['\\', '"']
  else if c = '\\' then ['\\', '\\']
  else if c = '\n' then ['\\', 'n']
  else if c = '\t' then ['\\', 't']
  else if c = '\r' then ['\\', 'r']
  else [c]

mutual

/-- Modelled from the spec: the external serializer
(fastjson `Value.MarshalTo`) — standard JSON text, fields and elements
in stored order, comma separated. -/
def serializeJ : JValue → List Char
  | jnull => ['n', 'u', 'l', 'l']
  | jbool true => ['t', 'r', 'u', 'e']
  | jbool false => ['f', 'a', 'l', 's', 'e']
  | jnum lit => lit.data
  | jstr s => '"' :: (s.data.map escapeChar).flatten ++ ['"']
  | jarr es => '[' :: serializeArr es ++ [']']
  | jobj fs => '\x7b' :: serializeObjFields fs ++ ['\x7d']

def serializeArr : List JValue → List Char
  | [] => []
  | [e] => serializeJ e
  | e :: es => serializeJ e ++ ',' :: serializeArr es

def serializeObjFields : List (String × JValue) → List Char
  | [] => []
  | [(k, v)] => '"' :: (k.data.map escapeChar).flatten ++ '"' :: ':' :: serializeJ v
  | (k, v) :: fs =>
    '"' :: (k.data.map escapeChar).flatten ++ '"' :: ':' :: serializeJ v ++ ',' :: serializeObjFields fs

end

/-- Model of `Operation.Marshal` (src/patch.go lines 186 to 188):
serialize the operation's object. -/
def Operation.Marshal (o : Operation) : List Char :=
  serializeJ (jobj o)

/-- Model of `DecodePatch` (src/patch.go lines 192 to 216): parse the
buffer, require a top-level array, and require every element to be an
object. -/
def DecodePatch (buf : List Char) : Except String Patch :=
  match parseJSON buf with
  | none => .error "cannot parse patch"
  | some v =>
    match v with
    | jarr elems =>
      let rec toOps : List JValue → Except String Patch
        | [] => .ok []
        | jobj fs :: rest =>
          match toOps rest with
          | .ok ops => .ok (fs :: ops)
          | .error e => .error e
        | _ :: _ => .error "patch element is not an object"
      toOps elems
    | _ => .error "unexpected patch type"

/-- Model of `Patch.Marshal` (src/patch.go lines 218 to 229): write
`[`, then every operation's marshalled bytes one after the other —
with no separator between operations — then `]`. -/
def Patch.Marshal (p : Patch) : List Char :=
  '[' :: (p.map Operation.Marshal).flatten ++ [']']

/-- Structural equality of two buffers as parsed JSON: both parse and
the parses coincide. -/
def jsonStructEq (a b : List Char) : Prop :=
  ∃ v, parseJSON a = some v ∧ parseJSON b = some v

/-! ### Helper lemmas about the container primitives -/

theorem objGet_objModify_self {fs : List (String × JValue)} {k : String} {c : JValue}
    (f : JValue → JValue) (h : objGet fs k = some c) :
    objGet (objModify fs k f) k = some (f c) := by
  induction fs with
  | nil => simp [objGet] at h
  | cons kv fs ih =>
    obtain ⟨k0, v0⟩ := kv
    by_cases hk : k0 = k
    · subst hk
      simp [objGet] at h
      simp [objGet, objModify, h]
    · simp [objGet, objModify, hk] at h ⊢
      exact ih h

theorem objModify_id {fs : List (String × JValue)} {k : String} {c : JValue}
    {f : JValue → JValue} (h : objGet fs k = some c) (hf : f c = c) :
    objModify fs k f = fs := by
  induction fs with
  | nil => simp [objGet] at h
  | cons kv fs ih =>
    obtain ⟨k0, v0⟩ := kv
    by_cases hk : k0 = k
    · subst hk
      simp [objGet] at h
      simp [objModify, h, hf]
    · simp [objGet, hk] at h
      simp [objModify, hk, ih h]

theorem objDel_of_absent {fs : List (String × JValue)} {k : String}
    (h : objGet fs k = none) : objDel fs k = fs := by
  induction fs with
  | nil => rfl
  | cons kv fs ih =>
    obtain ⟨k0, v0⟩ := kv
    by_cases hk : k0 = k
    · subst hk; simp [objGet] at h
    · simp [objGet, hk] at h
      simp [objDel, hk, ih h]

theorem objGet_objSet_self (fs : List (String × JValue)) (k : String) (v : JValue) :
    objGet (objSet fs k v) k = some v := by
  induction fs with
  | nil => simp [objSet, objGet]
  | cons kv fs ih =>
    obtain ⟨k0, v0⟩ := kv
    by_cases hk : k0 = k
    · subst hk; simp [objSet, objGet]
    · simp [objSet, objGet, hk, ih]

theorem arrModify_length (es : List JValue) (n : Nat) (f : JValue → JValue) :
    (arrModify es n f).length = es.length := by
  induction es generalizing n with
  | nil => rfl
  | cons e es ih =>
    cases n with
    | zero => simp [arrModify]
    | succ n => simp [arrModify, ih]

theorem getElem?_arrModify_self {es : List JValue} {n : Nat} {c : JValue}
    (f : JValue → JValue) (h : es[n]? = some c) :
    (arrModify es n f)[n]? = some (f c) := by
  induction es generalizing n with
  | nil => simp at h
  | cons e es ih =>
    cases n with
    | zero => simp at h; simp [arrModify, h]
    | succ n => simp at h; simpa [arrModify] using ih h

theorem arrModify_id {es : List JValue} {n : Nat} {c : JValue} {f : JValue → JValue}
    (h : es[n]? = some c) (hf : f c = c) : arrModify es n f = es := by
  induction es generalizing n with
  | nil => simp at h
  | cons e es ih =>
    cases n with
    | zero => simp at h; simp [arrModify, h, hf]
    | succ n => simp at h; simp [arrModify, ih h]

theorem eraseIdx_of_length_le {es : List JValue} {n : Nat}
    (h : es.length ≤ n) : es.eraseIdx n = es := by
  induction es generalizing n with
  | nil => simp
  | cons e es ih =>
    cases n with
    | zero => simp at h
    | succ n =>
      simp only [List.length_cons, Nat.add_le_add_iff_right] at h
      simp [List.eraseIdx, ih h]

theorem insertArrayItem_length (es : List JValue) (n : Nat) (v : JValue) :
    (insertArrayItem es n v).length = es.length + 1 := by
  induction es generalizing n with
  | nil => cases n <;> simp [insertArrayItem]
  | cons e es ih =>
    cases n with
    | zero => simp [insertArrayItem]
    | succ n => simp [insertArrayItem, ih]

theorem getElem?_insertArrayItem_self {es : List JValue} {n : Nat} (v : JValue)
    (h : n ≤ es.length) : (insertArrayItem es n v)[n]? = some v := by
  induction es generalizing n with
  | nil =>
    have : n = 0 := Nat.le_zero.mp h
    subst this; simp [insertArrayItem]
  | cons e es ih =>
    cases n with
    | zero => simp [insertArrayItem]
    | succ n =>
      simp only [List.length_cons, Nat.add_le_add_iff_right] at h
      simpa [insertArrayItem] using ih h

theorem insertArrayItem_length_self (es : List JValue) (v : JValue) :
    insertArrayItem es es.length v = es ++ [v] := by
  induction es with
  | nil => rfl
  | cons e es ih => simp [insertArrayItem, List.length_cons, ih]

theorem isContainer_setAcc {c w : JValue} (accs : List Acc)
    (hc : isContainer c = true) (hw : isContainer w = true) :
    isContainer (setAcc c accs w) = true := by
  cases accs with
  | nil => cases c <;> simpa [setAcc] using hw
  | cons a accs =>
    cases c with
    | jobj fs => cases a <;> simp [setAcc, isContainer]
    | jarr es => cases a <;> simp [setAcc, isContainer]
    | jnull => simp [isContainer] at hc
    | jbool b => simp [isContainer] at hc
    | jnum lit => simp [isContainer] at hc
    | jstr s => simp [isContainer] at hc

/-- Resolution in the updated tree: rewriting the subtree at a resolved
accessor path with a container makes the same intermediate tokens
resolve to the same accessor path, now ending at the new parent. -/
theorem resolve_setAcc {parts : List (List Char)} {t parent w : JValue} {accs : List Acc}
    (h : resolve t parts = some (accs, parent)) (hw : isContainer w = true) :
    resolve (setAcc t accs w) parts = some (accs, w) := by
  induction parts generalizing t accs with
  | nil =>
    simp [resolve] at h
    obtain ⟨h1, h2⟩ := h
    subst h1; subst h2
    simp [resolve, setAcc]
  | cons tok rest ih =>
    cases t with
    | jobj fs =>
      simp only [resolve] at h
      cases hob : objGet fs (String.mk (decodePatchKey tok)) with
      | none => rw [show objGet fs (String.mk (decodePatchKey tok)) = none from hob] at h; exact Option.noConfusion h
      | some child =>
        simp only [hob] at h
        by_cases hcon : isContainer child
        · rw [if_pos hcon] at h
          cases hres : resolve child rest with
          | none => rw [hres] at h; exact Option.noConfusion h
          | some p =>
            obtain ⟨accs2, parent2⟩ := p
            simp only [hres, Option.some.injEq, Prod.mk.injEq] at h
            obtain ⟨haccs, hpar⟩ := h
            subst haccs; subst hpar
            simp only [setAcc, resolve]
            simp [objGet_objModify_self _ hob, isContainer_setAcc _ hcon hw, ih hres]
        · rw [if_neg hcon] at h; simp at h
    | jarr es =>
      simp only [resolve] at h
      cases hat : goAtoi (decodePatchKey tok) with
      | none => rw [hat] at h; exact Option.noConfusion h
      | some i =>
        simp only [hat] at h
        by_cases hneg : i < 0
        · rw [if_pos hneg] at h; simp at h
        · rw [if_neg hneg] at h
          cases hel : es[i.toNat]? with
          | none => rw [hel] at h; exact Option.noConfusion h
          | some child =>
            simp only [hel] at h
            by_cases hcon : isContainer child
            · rw [if_pos hcon] at h
              cases hres : resolve child rest with
              | none => rw [hres] at h; exact Option.noConfusion h
              | some p =>
                obtain ⟨accs2, parent2⟩ := p
                simp only [hres, Option.some.injEq, Prod.mk.injEq] at h
                obtain ⟨haccs, hpar⟩ := h
                subst haccs; subst hpar
                simp only [setAcc, resolve]
                simp [hat, hneg, getElem?_arrModify_self _ hel,
                  isContainer_setAcc _ hcon hw, ih hres]
            · rw [if_neg hcon] at h; simp at h
    | jnull => simp [resolve] at h
    | jbool b => simp [resolve] at h
    | jnum lit => simp [resolve] at h
    | jstr s => simp [resolve] at h

/-- Writing the resolved parent back unchanged is the identity on the
whole tree. -/
theorem setAcc_resolve_self {parts : List (List Char)} {t parent : JValue} {accs : List Acc}
    (h : resolve t parts = some (accs, parent)) :
    setAcc t accs parent = t := by
  induction parts generalizing t accs with
  | nil =>
    simp [resolve] at h
    obtain ⟨h1, h2⟩ := h
    subst h1; subst h2
    simp [setAcc]
  | cons tok rest ih =>
    cases t with
    | jobj fs =>
      simp only [resolve] at h
      cases hob : objGet fs (String.mk (decodePatchKey tok)) with
      | none => rw [show objGet fs (String.mk (decodePatchKey tok)) = none from hob] at h; exact Option.noConfusion h
      | some child =>
        simp only [hob] at h
        by_cases hcon : isContainer child
        · rw [if_pos hcon] at h
          cases hres : resolve child rest with
          | none => rw [hres] at h; exact Option.noConfusion h
          | some p =>
            obtain ⟨accs2, parent2⟩ := p
            simp only [hres, Option.some.injEq, Prod.mk.injEq] at h
            obtain ⟨haccs, hpar⟩ := h
            subst haccs; subst hpar
            simp only [setAcc]
            rw [objModify_id hob (ih hres)]
        · rw [if_neg hcon] at h; simp at h
    | jarr es =>
      simp only [resolve] at h
      cases hat : goAtoi (decodePatchKey tok) with
      | none => rw [hat] at h; exact Option.noConfusion h
      | some i =>
        simp only [hat] at h
        by_cases hneg : i < 0
        · rw [if_pos hneg] at h; simp at h
        · rw [if_neg hneg] at h
          cases hel : es[i.toNat]? with
          | none => rw [hel] at h; exact Option.noConfusion h
          | some child =>
            simp only [hel] at h
            by_cases hcon : isContainer child
            · rw [if_pos hcon] at h
              cases hres : resolve child rest with
              | none => rw [hres] at h; exact Option.noConfusion h
              | some p =>
                obtain ⟨accs2, parent2⟩ := p
                simp only [hres, Option.some.injEq, Prod.mk.injEq] at h
                obtain ⟨haccs, hpar⟩ := h
                subst haccs; subst hpar
                simp only [setAcc]
                rw [arrModify_id hel (ih hres)]
            · rw [if_neg hcon] at h; simp at h
    | jnull => simp [resolve] at h
    | jbool b => simp [resolve] at h
    | jnum lit => simp [resolve] at h
    | jstr s => simp [resolve] at h



end JsonMerge

namespace JsonMerge

open JValue

/-! ## Claims -/

/-- The two-operation patch buffer used for the round-trip claim. -/
def bufC1 : List Char :=
  "[\x7b\"op\":\"remove\",\"path\":\"/a\"\x7d,\x7b\"op\":\"remove\",\"path\":\"/b\"\x7d]".data

/-- The decode of `bufC1`. -/
def opsC1 : Patch :=
  [[("op", jstr "remove"), ("path", jstr "/a")],
   [("op", jstr "remove"), ("path", jstr "/b")]]

/-- C1: the decode→encode round trip fails for a patch of two
operations: `Patch.Marshal` writes the operations' bytes back to back
with no separating comma, so the marshalled buffer is not parseable
JSON at all, and in particular is not structurally equal, as parsed
JSON, to the original buffer. -/
theorem c1_roundtrip_fails_for_two_ops :
    DecodePatch bufC1 = .ok opsC1 ∧
    Patch.Marshal opsC1 =
      "[\x7b\"op\":\"remove\",\"path\":\"/a\"\x7d\x7b\"op\":\"remove\",\"path\":\"/b\"\x7d]".data ∧
    parseJSON (Patch.Marshal opsC1) = none ∧
    ¬ jsonStructEq (Patch.Marshal opsC1) bufC1 := by
  refine ⟨rfl, rfl, rfl, ?_⟩
  rintro ⟨v, hv, -⟩
  rw [show parseJSON (Patch.Marshal opsC1) = none from rfl] at hv
  exact Option.noConfusion hv

/-- C3: RFC 6901 token decoding is a single left-to-right scan,
replacing `~1` by `/` and `~0` by `~`, without double-decoding:
`a~01b` decodes to `a~1b` (not to a string containing `/`) and `c~10d`
decodes to `c/0d`. -/
theorem c3_decode_patch_key_examples :
    decodePatchKey "a~01b".data = "a~1b".data ∧
    decodePatchKey "c~10d".data = "c/0d".data :=
  ⟨rfl, rfl⟩

/-- C4 (code bug): a replace operation whose resolved final key is an
out-of-bounds array index does not fail — the array `get` existence
check never returns an error, and the forked `SetArrayItem` appends —
so replace succeeds and creates a new element, contradicting the
claim (and the spec's `replace never creates`). -/
theorem c4_replace_oob_array_creates :
    Patch.ApplyFast
        [[("op", jstr "replace"), ("path", jstr "/a/1"), ("value", jnum "1")]]
        (jobj [("a", jarr [jstr "x"])])
      = .ok (jobj [("a", jarr [jstr "x", jnum "1"])]) := rfl

/-- C5 counterexample: `set` on an array of length 1 with index token
`1` (an index ≥ the length) does not yield an invalid-index failure;
it succeeds and appends. -/
theorem c5_cex_set_beyond_length_succeeds :
    conSet (jarr [jstr "x"]) "1".data (jstr "z") = .ok (jarr [jstr "x", jstr "z"]) := rfl

/-- C5 amended: `set(idx, v)` replaces the element when `idx` is
strictly below the length and otherwise succeeds by appending `v`; only
a non-numeric or negative index token yields an invalid-index
failure. -/
theorem c5_set_index_semantics (es : List JValue) (v : JValue) (k : List Char) :
    (goAtoi k = none → conSet (jarr es) k v = .error "invalid index syntax") ∧
    (∀ i : Int, goAtoi k = some i → i < 0 →
      conSet (jarr es) k v = .error "invalid negative index") ∧
    (∀ i : Int, goAtoi k = some i → 0 ≤ i → i.toNat < es.length →
      conSet (jarr es) k v = .ok (jarr (es.set i.toNat v))) ∧
    (∀ i : Int, goAtoi k = some i → 0 ≤ i → es.length ≤ i.toNat →
      conSet (jarr es) k v = .ok (jarr (es ++ [v]))) := by
  refine ⟨?_, ?_, ?_, ?_⟩
  · intro h
    simp [conSet, getIndex, h]
  · intro i h hneg
    simp [conSet, getIndex, h, hneg]
  · intro i h hpos hlt
    simp [conSet, getIndex, h, Int.not_lt.mpr hpos, setArrayItem, hlt]
  · intro i h hpos hge
    simp [conSet, getIndex, h, Int.not_lt.mpr hpos, setArrayItem, Nat.not_lt.mpr hge]

/-- C5 witness: evaluating the amended theorem's append branch at the
concrete array `["x"]` and token `5`. -/
theorem c5_set_index_semantics_witness :
    goAtoi "5".data = some 5 ∧ (0 : Int) ≤ 5 ∧ (List.length [jstr "x"] : Nat) ≤ (5 : Int).toNat ∧
    conSet (jarr [jstr "x"]) "5".data (jstr "z") = .ok (jarr [jstr "x", jstr "z"]) :=
  ⟨rfl, by decide, by decide,
    (c5_set_index_semantics [jstr "x"] (jstr "z") "5".data).2.2.2 5 rfl (by decide) (by decide)⟩

/-- C6: on an array of length n, `add` with the append sentinel `-`
and `add` with a numeric token parsing to n produce the same array:
the value appended after the last element, length n + 1. -/
theorem c6_append_sentinel_equiv (es : List JValue) (v : JValue) (k : List Char) (n : Nat)
    (hk : goAtoi k = some (n : Int)) (hn : n = es.length) :
    conAdd (jarr es) k v = .ok (jarr (es ++ [v])) ∧
    conAdd (jarr es) "-".data v = .ok (jarr (es ++ [v])) := by
  subst hn
  constructor
  · have hkdash : k ≠ ['-'] := by
      intro hcontra
      rw [hcontra] at hk
      exact Option.noConfusion ((rfl : goAtoi ['-'] = none).symm.trans hk)
    simp [conAdd, hkdash, getIndex, hk, insertArrayItem_length_self, Int.not_lt.mpr (Int.natCast_nonneg es.length)]
  · show conAdd (jarr es) ['-'] v = .ok (jarr (es ++ [v]))
    simp [conAdd]

/-- C6 witness: the sentinel/append equivalence evaluated on the
concrete array `[null]` with numeric token `1`. -/
theorem c6_append_sentinel_equiv_witness :
    goAtoi "1".data = some 1 ∧ (1 : Nat) = List.length [jnull] ∧
    conAdd (jarr [jnull]) "1".data (jstr "z") = .ok (jarr [jnull, jstr "z"]) ∧
    conAdd (jarr [jnull]) "-".data (jstr "z") = .ok (jarr [jnull, jstr "z"]) :=
  ⟨rfl, rfl, c6_append_sentinel_equiv [jnull] (jstr "z") "1".data 1 rfl rfl⟩

/-- C7: operations are applied strictly in list order, each seeing the
state the previous ones produced, and the first failing operation
aborts the whole apply with its error — the operations after it are
never executed, so the result does not depend on them. -/
theorem c7_sequential_first_failure_aborts :
    (∀ (s : FState) (xs ys : List Operation),
      applyOps s (xs ++ ys) =
        match applyOps s xs with
        | .ok s1 => applyOps s1 ys
        | .err e => .err e
        | .crash => .crash) ∧
    (∀ (doc : JValue) (pre : List Operation) (op : Operation) (post : List Operation)
        (s1 : FState) (e : String),
      applyOps (initState doc) pre = .ok s1 → applyOp s1 op = .err e →
      Patch.ApplyFast (pre ++ op :: post) doc = .err e) := by
  have hseq : ∀ (xs : List Operation) (s : FState) (ys : List Operation),
      applyOps s (xs ++ ys) =
        match applyOps s xs with
        | .ok s1 => applyOps s1 ys
        | .err e => .err e
        | .crash => .crash := by
    intro xs
    induction xs with
    | nil => intro s ys; simp [applyOps]
    | cons x xs ih =>
      intro s ys
      show applyOps s (x :: (xs ++ ys)) = _
      simp only [applyOps]
      cases applyOp s x with
      | ok s2 => exact ih s2 ys
      | err e => rfl
      | crash => rfl
  refine ⟨fun s xs ys => hseq xs s ys, ?_⟩
  intro doc pre op post s1 e hpre hop
  show Patch.ApplyFast (pre ++ op :: post) doc = .err e
  unfold Patch.ApplyFast
  rw [hseq pre (initState doc) (op :: post), hpre]
  simp only [applyOps]
  rw [hop]

/-- C7 witness: a two-operation patch on {"a":1} whose second
operation (a remove with an unresolvable empty path) fails: the whole
apply surfaces that error. -/
theorem c7_sequential_first_failure_aborts_witness :
    applyOps (initState (jobj [("a", jnum "1")]))
        [[("op", jstr "add"), ("path", jstr "/b"), ("value", jnum "2")]]
      = .ok ⟨jobj [("a", jnum "1"), ("b", jnum "2")], some PD.root⟩ ∧
    applyOp ⟨jobj [("a", jnum "1"), ("b", jnum "2")], some PD.root⟩
        [("op", jstr "remove"), ("path", jstr "")] = .err "doc is missing path" ∧
    Patch.ApplyFast
        [[("op", jstr "add"), ("path", jstr "/b"), ("value", jnum "2")],
         [("op", jstr "remove"), ("path", jstr "")],
         [("op", jstr "remove"), ("path", jstr "/a")]]
        (jobj [("a", jnum "1")]) = .err "doc is missing path" :=
  ⟨rfl, rfl,
    c7_sequential_first_failure_aborts.2 (jobj [("a", jnum "1")])
      [[("op", jstr "add"), ("path", jstr "/b"), ("value", jnum "2")]]
      [("op", jstr "remove"), ("path", jstr "")]
      [[("op", jstr "remove"), ("path", jstr "/a")]]
      ⟨jobj [("a", jnum "1"), ("b", jnum "2")], some PD.root⟩
      "doc is missing path" rfl rfl⟩

/-- C8 (code bug): replace at the empty path rejects a non-container
value, but on success `ApplyFast` still returns the original root: the
container variable is rebound to the new value while the returned
`doc` is untouched, so the caller never sees the new root. -/
theorem c8_root_replace_returns_original :
    Patch.ApplyFast
        [[("op", jstr "replace"), ("path", jstr ""), ("value", jstr "s")]]
        (jobj [("a", jnum "1")])
      = .err "replace operation: value must be object or array" ∧
    Patch.ApplyFast
        [[("op", jstr "replace"), ("path", jstr ""), ("value", jarr [jstr "x"])]]
        (jobj [("a", jnum "1")])
      = .ok (jobj [("a", jnum "1")]) :=
  ⟨rfl, rfl⟩

/-- Inversion of a successful resolution: `findObject` on a state whose
container wraps the root succeeded with a parent and key. -/
theorem findObject_ok_some {t0 : JValue} {p : List Char} {t : JValue} {accs : List Acc}
    {parent : JValue} {key : List Char}
    (h : findObject ⟨t0, some PD.root⟩ p = .ok (some (t, accs, parent, key))) :
    t = t0 ∧ ¬ (splitSlash p).length < 2 ∧
    resolve t0 ((splitSlash p).drop 1).dropLast = some (accs, parent) ∧
    key = decodePatchKey ((splitSlash p).getLastD []) := by
  simp only [findObject, curTree] at h
  by_cases hlen : (splitSlash p).length < 2
  · rw [if_pos hlen] at h
    simp at h
  · rw [if_neg hlen] at h
    cases hres : resolve t0 ((splitSlash p).drop 1).dropLast with
    | none => rw [hres] at h; exact Option.noConfusion (PRes.ok.inj h)
    | some q =>
      obtain ⟨accs2, parent2⟩ := q
      simp only [hres, PRes.ok.injEq, Option.some.injEq, Prod.mk.injEq] at h
      obtain ⟨ht, haccs, hpar, hkey⟩ := h
      refine ⟨ht.symm, hlen, ?_, hkey.symm⟩
      rw [haccs, hpar]

/-- C9 counterexample: removing the absent member `/b` from
\x7b"a":1\x7d succeeds as a silent no-op instead of returning an
error. -/
theorem c9_cex_remove_absent_succeeds :
    Patch.ApplyFast [[("op", jstr "remove"), ("path", jstr "/b")]] (jobj [("a", jnum "1")])
      = .ok (jobj [("a", jnum "1")]) := rfl

/-- The final key is absent in the parent container: the object has no
such member, or every index the token parses to is at or beyond the
array's length. -/
def keyAbsent : JValue → List Char → Prop
  | jobj fs, k => objGet fs (String.mk k) = none
  | jarr es, k => ∀ n : Nat, goAtoi k = some (n : Int) → es.length ≤ n
  | _, _ => False

/-- C9 amended: when the path resolves but the final key is absent in
the parent container, a remove operation succeeds and leaves the
document completely unchanged (remove fails only when the path itself
is unresolvable). -/
theorem c9_remove_absent_key_noop (t0 : JValue) (op : Operation) (p : String)
    (accs : List Acc) (parent : JValue) (key : List Char)
    (hk : op.Kind = "remove") (hp : op.Path = some p)
    (hfo : findObject ⟨t0, some PD.root⟩ p.data = .ok (some (t0, accs, parent, key)))
    (habs : keyAbsent parent key) :
    applyOp ⟨t0, some PD.root⟩ op = .ok ⟨t0, some PD.root⟩ := by
  obtain ⟨-, -, hres, -⟩ := findObject_ok_some hfo
  have hrem : conRemove parent key = .ok parent := by
    cases parent with
    | jobj fs =>
      simp only [keyAbsent] at habs
      simp [conRemove, objDel_of_absent habs]
    | jarr es =>
      have hdel : arrDel es key = es := by
        unfold arrDel
        cases hat : goAtoi key with
        | none => rfl
        | some i =>
          by_cases hneg : i < 0
          · simp [hneg]
          · have h0 : (0 : Int) ≤ i := Int.not_lt.mp hneg
            have hcast : goAtoi key = some ((i.toNat : Nat) : Int) := by
              rw [hat, Int.toNat_of_nonneg h0]
            have hge := habs i.toNat hcast
            simp [hneg, eraseIdx_of_length_le hge]
      simp [conRemove, hdel]
    | jnull => exact absurd habs (by simp [keyAbsent])
    | jbool b => exact absurd habs (by simp [keyAbsent])
    | jnum lit => exact absurd habs (by simp [keyAbsent])
    | jstr str => exact absurd habs (by simp [keyAbsent])
  simp [applyOp, hk, patchRemove, hp, hfo, hrem, putCur, setAcc_resolve_self hres]

/-- C9 witness: the amended no-op theorem evaluated at the concrete
document \x7b"a":1\x7d and the absent member path `/b`. -/
theorem c9_remove_absent_key_noop_witness :
    findObject ⟨jobj [("a", jnum "1")], some PD.root⟩ "/b".data
      = .ok (some (jobj [("a", jnum "1")], [], jobj [("a", jnum "1")], "b".data)) ∧
    applyOp ⟨jobj [("a", jnum "1")], some PD.root⟩ [("op", jstr "remove"), ("path", jstr "/b")]
      = .ok ⟨jobj [("a", jnum "1")], some PD.root⟩ :=
  ⟨rfl,
    c9_remove_absent_key_noop (jobj [("a", jnum "1")])
      [("op", jstr "remove"), ("path", jstr "/b")] "/b" [] (jobj [("a", jnum "1")])
      "b".data rfl rfl rfl rfl⟩

/-- `findObject` against the nil container (scalar root): at least one
intermediate token means a method call on the nil container — a panic;
exactly two split segments (a single reference token) means the nil
container is returned and the caller sees a missing path. -/
theorem findObject_nil (doc : JValue) (p : List Char) :
    (3 ≤ (splitSlash p).length → findObject ⟨doc, none⟩ p = .crash) ∧
    ((splitSlash p).length = 2 → findObject ⟨doc, none⟩ p = .ok none) := by
  constructor
  · intro h3
    have hlt : ¬ (splitSlash p).length < 2 := by omega
    have hlenparts : ((splitSlash p).tail.dropLast).length = (splitSlash p).length - 2 := by
      rw [List.length_dropLast, List.length_tail]; omega
    cases hps : (splitSlash p).tail.dropLast with
    | nil => rw [hps] at hlenparts; simp at hlenparts; omega
    | cons a as => simp [findObject, curTree, hlt, List.drop_one, hps]
  · intro h2
    have hlt : ¬ (splitSlash p).length < 2 := by omega
    have hlenparts : ((splitSlash p).tail.dropLast).length = (splitSlash p).length - 2 := by
      rw [List.length_dropLast, List.length_tail]; omega
    rw [h2] at hlenparts
    simp only [Nat.sub_self] at hlenparts
    have hps := List.length_eq_zero.mp hlenparts
    simp [findObject, curTree, hlt, List.drop_one, hps]

/-- C10 counterexample: on the scalar root `"s"`, an add whose path has
a single reference token does not dereference the nil container: it
returns a missing-path error instead. -/
theorem c10_cex_single_token_path_errors :
    Patch.ApplyFast [[("op", jstr "add"), ("path", jstr "/a"), ("value", jnum "1")]] (jstr "s")
      = .err "doc is missing path" := rfl

/-- C10 amended: for a scalar root, `ApplyFast` builds no container.  A
first operation of kind add, remove, replace or move whose resolved
pointer (`path`, or `from` for move) splits into three or more
segments — i.e. has at least one intermediate token — dereferences the
nil container and panics; with exactly two segments (a single
reference token) the operation instead fails with an error. -/
theorem c10_scalar_root_nil_container (doc : JValue) (op : Operation) (p : String)
    (hscalar : isContainer doc = false)
    (hkp : (op.Kind = "add" ∨ op.Kind = "remove" ∨ op.Kind = "replace") ∧ op.Path = some p
         ∨ op.Kind = "move" ∧ op.From = some p) :
    (3 ≤ (splitSlash p.data).length → Patch.ApplyFast [op] doc = .crash) ∧
    ((splitSlash p.data).length = 2 → ∃ e, Patch.ApplyFast [op] doc = .err e) := by
  have hinit : initState doc = ⟨doc, none⟩ := by simp [initState, hscalar]
  have hne1 : (splitSlash p.data).length = 2 → ¬ (p = "") := by
    intro h2 hq
    subst hq
    rw [show splitSlash "".data = [[]] from rfl] at h2
    simp at h2
  have hne2 : 3 ≤ (splitSlash p.data).length → ¬ (p = "") := by
    intro h3 hq
    subst hq
    rw [show splitSlash "".data = [[]] from rfl] at h3
    simp at h3
  constructor
  · intro h3
    have hcr := (findObject_nil doc p.data).1 h3
    have hap : applyOp ⟨doc, none⟩ op = .crash := by
      rcases hkp with ⟨hks, hp⟩ | ⟨hk, hf⟩
      · rcases hks with hk | hk | hk
        · simp [applyOp, hk, patchAdd, hp, hcr]
        · simp [applyOp, hk, patchRemove, hp, hcr]
        · simp [applyOp, hk, patchReplace, hp, hne2 h3, hcr]
      · simp [applyOp, hk, patchMove, hf, hcr]
    show Patch.ApplyFast [op] doc = .crash
    unfold Patch.ApplyFast
    rw [hinit]
    simp [applyOps, hap]
  · intro h2
    have hok := (findObject_nil doc p.data).2 h2
    have hap : ∃ e, applyOp ⟨doc, none⟩ op = .err e := by
      rcases hkp with ⟨hks, hp⟩ | ⟨hk, hf⟩
      · rcases hks with hk | hk | hk
        · exact ⟨"doc is missing path", by simp [applyOp, hk, patchAdd, hp, hok]⟩
        · exact ⟨"doc is missing path", by simp [applyOp, hk, patchRemove, hp, hok]⟩
        · exact ⟨"replace operation: doc is missing path",
            by simp [applyOp, hk, patchReplace, hp, hne1 h2, hok]⟩
      · exact ⟨"move operation: doc is missing path",
          by simp [applyOp, hk, patchMove, hf, hok]⟩
    obtain ⟨e, hap⟩ := hap
    refine ⟨e, ?_⟩
    show Patch.ApplyFast [op] doc = .err e
    unfold Patch.ApplyFast
    rw [hinit]
    simp [applyOps, hap]

/-- C10 witness: on the scalar root 5, an add at `/a/b` (one
intermediate token) panics with a nil dereference. -/
theorem c10_scalar_root_nil_container_witness :
    isContainer (jnum "5") = false ∧ 3 ≤ (splitSlash "/a/b".data).length ∧
    Patch.ApplyFast [[("op", jstr "add"), ("path", jstr "/a/b"), ("value", jnum "1")]] (jnum "5")
      = .crash :=
  ⟨rfl, by decide,
    (c10_scalar_root_nil_container (jnum "5")
        [("op", jstr "add"), ("path", jstr "/a/b"), ("value", jnum "1")] "/a/b" rfl
        (Or.inl ⟨Or.inl rfl, rfl⟩)).1 (by decide)⟩

/-- C2 counterexample: a successful move inside one array.  Moving
from `/a/1` to `/a/0` in \x7b"a":["x","y"]\x7d fetches "y" and inserts
it at index 0 with no removal; the result is \x7b"a":["y","x","y"]\x7d.
The destination `/a/0` holds the moved value, but the source pointer
`/a/1` now holds "x", not the original value "y": the claim's
assertion that the source value is still at the source pointer fails. -/
theorem c2_cex_move_shifts_source :
    Patch.ApplyFast
        [[("op", jstr "move"), ("from", jstr "/a/1"), ("path", jstr "/a/0")]]
        (jobj [("a", jarr [jstr "x", jstr "y"])])
      = .ok (jobj [("a", jarr [jstr "y", jstr "x", jstr "y"])]) ∧
    readPointer (jobj [("a", jarr [jstr "x", jstr "y"])]) "/a/1".data = some (jstr "y") ∧
    readPointer (jobj [("a", jarr [jstr "y", jstr "x", jstr "y"])]) "/a/0".data
      = some (jstr "y") ∧
    readPointer (jobj [("a", jarr [jstr "y", jstr "x", jstr "y"])]) "/a/1".data
      = some (jstr "x") ∧
    jstr "x" ≠ jstr "y" := by
  refine ⟨rfl, rfl, rfl, rfl, ?_⟩
  intro h
  exact absurd (JValue.jstr.inj h) (by decide)

/-- The destination key resolves inside the destination parent after an
add: any object member key, or an array index token parsing to an index
at most the array length (this excludes the append sentinel `-`, whose
result cannot be read back by pointer). -/
def destKeyOk : JValue → List Char → Prop
  | jobj _, _ => True
  | jarr es, k => ∃ n : Nat, goAtoi k = some (n : Int) ∧ n ≤ es.length
  | _, _ => False

/-- C2 amended: a successful move is get-plus-add with no removal: when
`from` resolves with value v and `path` resolves to a destination whose
final key is an object member or an in-range array index, the move
succeeds, the whole result is exactly the original document with the
mutated destination parent written back (no removal anywhere), and the
destination pointer reads back v.  The source pointer, however, need
not still hold v when the insertion shifts positions on its own path
(see the counterexample). -/
theorem c2_move_adds_fetched_value (t0 : JValue) (op : Operation) (fp pp : String)
    (faccs : List Acc) (fparent : JValue) (fkey : List Char)
    (paccs : List Acc) (pparent : JValue) (pkey : List Char) (v : JValue)
    (hk : op.Kind = "move") (hf : op.From = some fp) (hp : op.Path = some pp)
    (hfo : findObject ⟨t0, some PD.root⟩ fp.data = .ok (some (t0, faccs, fparent, fkey)))
    (hget : conGet fparent fkey = .ok (some v))
    (hpo : findObject ⟨t0, some PD.root⟩ pp.data = .ok (some (t0, paccs, pparent, pkey)))
    (hdest : destKeyOk pparent pkey) :
    ∃ parent2, conAdd pparent pkey v = .ok parent2 ∧
      applyOp ⟨t0, some PD.root⟩ op = .ok ⟨setAcc t0 paccs parent2, some PD.root⟩ ∧
      readPointer (setAcc t0 paccs parent2) pp.data = some v := by
  obtain ⟨-, hlen, hres, hkey⟩ := findObject_ok_some hpo
  have hmain : ∃ parent2, conAdd pparent pkey v = .ok parent2 ∧
      isContainer parent2 = true ∧
      (match parent2 with
        | jobj fs => objGet fs (String.mk pkey)
        | jarr es => arrGetTok es pkey
        | _ => none) = some v := by
    cases pparent with
    | jobj fs =>
      refine ⟨jobj (objSet fs (String.mk pkey) v), rfl, rfl, ?_⟩
      simp [objGet_objSet_self]
    | jarr es =>
      obtain ⟨n, hat, hle⟩ := hdest
      have hkdash : pkey ≠ ['-'] := by
        intro hcontra
        rw [hcontra] at hat
        exact Option.noConfusion ((rfl : goAtoi ['-'] = none).symm.trans hat)
      refine ⟨jarr (insertArrayItem es n v), ?_, rfl, ?_⟩
      · simp [conAdd, hkdash, getIndex, hat, Int.not_lt.mpr (Int.natCast_nonneg n)]
      · simp [arrGetTok, hat, Int.not_lt.mpr (Int.natCast_nonneg n),
          getElem?_insertArrayItem_self v hle]
    | jnull => exact absurd hdest (by simp [destKeyOk])
    | jbool b => exact absurd hdest (by simp [destKeyOk])
    | jnum lit => exact absurd hdest (by simp [destKeyOk])
    | jstr str => exact absurd hdest (by simp [destKeyOk])
  obtain ⟨parent2, hadd, hcon2, hread⟩ := hmain
  refine ⟨parent2, hadd, ?_, ?_⟩
  · simp [applyOp, hk, patchMove, hf, hfo, hget, hp, hpo, hadd, putCur]
  · have hres2 := resolve_setAcc hres hcon2
    simp only [readPointer]
    rw [if_neg hlen]
    rw [List.drop_one] at hres2
    simp only [List.drop_one, hres2]
    rw [← hkey]
    exact hread

/-- C2 witness: the amended theorem evaluated on the spec's concrete
scenario — moving `/biscuits` to `/cookies` in \x7b"biscuits":1\x7d;
the destination reads back the fetched value 1. -/
theorem c2_move_adds_fetched_value_witness :
    findObject ⟨jobj [("biscuits", jnum "1")], some PD.root⟩ "/biscuits".data
      = .ok (some (jobj [("biscuits", jnum "1")], [], jobj [("biscuits", jnum "1")],
          "biscuits".data)) ∧
    ∃ parent2,
      conAdd (jobj [("biscuits", jnum "1")]) "cookies".data (jnum "1") = .ok parent2 ∧
      applyOp ⟨jobj [("biscuits", jnum "1")], some PD.root⟩
          [("op", jstr "move"), ("from", jstr "/biscuits"), ("path", jstr "/cookies")]
        = .ok ⟨setAcc (jobj [("biscuits", jnum "1")]) [] parent2, some PD.root⟩ ∧
      readPointer (setAcc (jobj [("biscuits", jnum "1")]) [] parent2) "/cookies".data
        = some (jnum "1") :=
  ⟨rfl,
    c2_move_adds_fetched_value (jobj [("biscuits", jnum "1")])
      [("op", jstr "move"), ("from", jstr "/biscuits"), ("path", jstr "/cookies")]
      "/biscuits" "/cookies" [] (jobj [("biscuits", jnum "1")]) "biscuits".data
      [] (jobj [("biscuits", jnum "1")]) "cookies".data (jnum "1")
      rfl rfl rfl rfl rfl rfl trivial⟩

end JsonMerge
